import Mathlib

/-!
Verification of the library-consolidation scripts of the scriptorium
repository (scripts/plan_full_transfer.py, execute_full_transfer.py,
merge_reversed_author_pairs.py, resolve_outlier_authors.py,
flag_outlier_authors.py, validate_full_library.py, audit_raw_library.py,
sanitize_full_library.py).

Embedding conventions:
* Python strings are Lean `String`s (lists of characters); `str.upper`,
  `str.lower` act character-wise via `Char.toUpper`/`Char.toLower`
  (faithful on the ASCII fragment that those Lean functions handle).
* Unicode NFC/NFKC/NFKD normalisation is modelled as the identity (the
  embedded character domain is taken to be normalisation-invariant);
  the `unicodedata.combining` filter is kept, modelled by the main
  combining-diacritics block U+0300..U+036F.
* The decimal rendering of a collision counter (Python f-string `_{c}`)
  is modelled by `PyStr.natToString`, a structurally recursive decimal
  printer, so that all definitions evaluate inside the kernel.
* Filesystem trees are modelled by lists: a directory is the list of the
  names it contains, a file store is an association list from path to
  file data.  `path.exists()` becomes list membership.
-/

namespace PyStr

/-- Characters treated as whitespace by Python's `str.split()`, `str.strip()`
and the regex class backslash-s (ASCII fragment). -/
def isSpace (c : Char) : Bool :=
  c = ' ' || c = '\t' || c = '\n' || c = '\r' || c = '\x0b' || c = '\x0c'

/-- Python `str.strip()` on a character list. -/
def stripList (l : List Char) : List Char :=
  ((l.dropWhile isSpace).reverse.dropWhile isSpace).reverse

/-- Python `str.strip()`. -/
def strip (s : String) : String := ⟨stripList s.data⟩

/-- Python `str.strip(chars)` for an explicit character set. -/
def stripChars (cs : List Char) (s : String) : String :=
  ⟨((s.data.dropWhile (cs.contains ·)).reverse.dropWhile (cs.contains ·)).reverse⟩

/-- Python `str.lower()` (character-wise, ASCII fragment). -/
def lower (s : String) : String := ⟨s.data.map Char.toLower⟩

/-- Python `str.upper()` (character-wise, ASCII fragment). -/
def upper (s : String) : String := ⟨s.data.map Char.toUpper⟩

/-- Membership of a string in a list of strings, as a boolean
(Python `in` on a list or set of strings). -/
def memb (s : String) (l : List String) : Bool := l.any (fun x => x == s)

theorem memb_iff {s : String} {l : List String} : memb s l = true ↔ s ∈ l := by
  simp [memb, List.any_eq_true, beq_iff_eq]

/-- Python `c in s` for a single character. -/
def containsChar (c : Char) (s : String) : Bool := s.data.contains c

/-- Auxiliary for `splitWs`: accumulates the current word (reversed). -/
def splitWsAux : List Char → List Char → List (List Char)
  | [], acc => if acc.isEmpty then [] else [acc.reverse]
  | c :: rest, acc =>
    if isSpace c then
      if acc.isEmpty then splitWsAux rest [] else acc.reverse :: splitWsAux rest []
    else splitWsAux rest (c :: acc)

/-- Python `str.split()` with no argument: split on whitespace runs,
dropping empty fields. -/
def splitWs (s : String) : List String := (splitWsAux s.data []).map (⟨·⟩)

/-- Auxiliary for `collapseWs`: the boolean records whether the previous
character was whitespace. -/
def collapseWsAux : Bool → List Char → List Char
  | _, [] => []
  | prev, c :: rest =>
    if isSpace c then
      if prev then collapseWsAux true rest else ' ' :: collapseWsAux true rest
    else c :: collapseWsAux false rest

/-- Python `re.sub(r"\s+", " ", s)`: each maximal whitespace run becomes a
single space. -/
def collapseWs (s : String) : String := ⟨collapseWsAux false s.data⟩

/-- Auxiliary for `collapseUs`. -/
def collapseUsAux : Bool → List Char → List Char
  | _, [] => []
  | prev, c :: rest =>
    if c = '_' then
      if prev then collapseUsAux true rest else '_' :: collapseUsAux true rest
    else c :: collapseUsAux false rest

/-- Python `re.sub(r"__+", "_", s)`: each maximal underscore run becomes a
single underscore (runs of length one are unchanged by both). -/
def collapseUs (s : String) : String := ⟨collapseUsAux false s.data⟩

/-- Auxiliary for `splitComma`. -/
def splitCommaAux : List Char → List Char × List Char
  | [] => ([], [])
  | c :: rest =>
    if c = ',' then ([], rest)
    else
      let p := splitCommaAux rest
      (c :: p.1, p.2)

/-- Python `s.split(",", 1)` for a string that contains a comma: the parts
before and after the first comma. -/
def splitComma (s : String) : String × String :=
  (⟨(splitCommaAux s.data).1⟩, ⟨(splitCommaAux s.data).2⟩)

/-- Python `w[:1].upper() + w[1:]`. -/
def capFirst (s : String) : String :=
  match s.data with
  | [] => ""
  | c :: rest => ⟨Char.toUpper c :: rest⟩

/-- Python `w[:1].upper() + w[1:].lower()`. -/
def capFirstLowerRest (s : String) : String :=
  match s.data with
  | [] => ""
  | c :: rest => ⟨Char.toUpper c :: rest.map Char.toLower⟩

/-- First character is an upper-case letter (Python `w[:1].isupper()`;
false for the empty string). -/
def firstIsUpper (s : String) : Bool :=
  match s.data with
  | [] => false
  | c :: _ => c.isUpper

/-- Boolean string-prefix test on the character lists (Python
`str.startswith`). -/
def strStarts (s pre : String) : Bool := pre.data.isPrefixOf s.data

theorem strStarts_append (p rest : String) : strStarts (p ++ rest) p = true := by
  simp [strStarts, String.data_append, List.isPrefixOf_iff_prefix]

/-- Fuel-driven decimal digit list of a natural number, most significant
digit first.  The fuel is always instantiated with `n + 1`, which is
sufficient; structural recursion keeps the definition kernel-reducible. -/
def natDigitsAux : Nat → Nat → List Char
  | 0, _ => []
  | fuel + 1, n =>
    if n < 10 then [Nat.digitChar n]
    else natDigitsAux fuel (n / 10) ++ [Nat.digitChar (n % 10)]

/-- Decimal digit list of a natural number. -/
def natDigits (n : Nat) : List Char := natDigitsAux (n + 1) n

/-- Decimal rendering of a natural number (Python `str(n)` / f-string). -/
def natToString (n : Nat) : String := ⟨natDigits n⟩

theorem natDigitsAux_congr :
    ∀ f₁ : Nat, ∀ f₂ n : Nat, n < f₁ → n < f₂ →
      natDigitsAux f₁ n = natDigitsAux f₂ n := by
  intro f₁
  induction f₁ with
  | zero => intro f₂ n h; omega
  | succ f ih =>
    intro f₂ n h₁ h₂
    match f₂, h₂ with
    | g + 1, h₂ =>
      by_cases hn : n < 10
      · simp [natDigitsAux, hn]
      · have hdiv : n / 10 < n := Nat.div_lt_self (by omega) (by omega)
        simp only [natDigitsAux, if_neg hn]
        rw [ih g (n / 10) (by omega) (by omega)]

theorem natDigits_eq (n : Nat) :
    natDigits n =
      if n < 10 then [Nat.digitChar n]
      else natDigits (n / 10) ++ [Nat.digitChar (n % 10)] := by
  by_cases hn : n < 10
  · simp [natDigits, natDigitsAux, hn]
  · have hdiv : n / 10 < n := Nat.div_lt_self (by omega) (by omega)
    have h1 : natDigits n = natDigitsAux n (n / 10) ++ [Nat.digitChar (n % 10)] := by
      simp [natDigits, natDigitsAux, hn]
    rw [h1, if_neg hn,
      show natDigits (n / 10) = natDigitsAux n (n / 10) from
        natDigitsAux_congr (n / 10 + 1) n (n / 10) (by omega) (by omega)]

theorem natDigits_ne_nil (n : Nat) : natDigits n ≠ [] := by
  rw [natDigits_eq]
  by_cases hn : n < 10 <;> simp [hn]

theorem digitChar_inj :
    ∀ a < 10, ∀ b < 10, Nat.digitChar a = Nat.digitChar b → a = b := by decide

theorem natDigits_inj : ∀ n m : Nat, natDigits n = natDigits m → n = m := by
  intro n
  induction n using Nat.strong_induction_on with
  | _ n ih =>
    intro m h
    rw [natDigits_eq n, natDigits_eq m] at h
    by_cases hn : n < 10 <;> by_cases hm : m < 10
    · simp only [if_pos hn, if_pos hm, List.cons.injEq] at h
      exact digitChar_inj n hn m hm h.1
    · exfalso
      rw [if_pos hn, if_neg hm] at h
      have h1 : ([Nat.digitChar n] : List Char).length =
          (natDigits (m / 10) ++ [Nat.digitChar (m % 10)]).length := by rw [h]
      have h2 : natDigits (m / 10) ≠ [] := natDigits_ne_nil _
      simp [List.length_append] at h1
      exact h2 h1
    · exfalso
      rw [if_neg hn, if_pos hm] at h
      have h1 : (natDigits (n / 10) ++ [Nat.digitChar (n % 10)]).length =
          ([Nat.digitChar m] : List Char).length := by rw [h]
      have h2 : natDigits (n / 10) ≠ [] := natDigits_ne_nil _
      simp [List.length_append] at h1
      exact h2 h1
    · rw [if_neg hn, if_neg hm] at h
      have hlen : ([Nat.digitChar (n % 10)] : List Char).length =
          ([Nat.digitChar (m % 10)] : List Char).length := rfl
      obtain ⟨h1, h2⟩ := List.append_inj' h hlen
      have hdiv : n / 10 < n := Nat.div_lt_self (by omega) (by omega)
      have e1 : n / 10 = m / 10 := ih (n / 10) hdiv (m / 10) h1
      have e2 : n % 10 = m % 10 := by
        simp only [List.cons.injEq, and_true] at h2
        exact digitChar_inj (n % 10) (Nat.mod_lt _ (by omega))
          (m % 10) (Nat.mod_lt _ (by omega)) h2
      omega

theorem natToString_inj : ∀ n m : Nat, natToString n = natToString m → n = m := by
  intro n m h
  exact natDigits_inj n m (congrArg String.data h)

end PyStr

namespace FsNames

open PyStr

/-- The candidate name built by the collision loops of the scripts:
Python f-string `f"{base}_{c}{ext}"`. -/
def mkCand (base ext : String) (c : Nat) : String :=
  base ++ "_" ++ natToString c ++ ext

theorem mkCand_inj (base ext : String) :
    ∀ c d : Nat, mkCand base ext c = mkCand base ext d → c = d := by
  intro c d h
  apply natToString_inj
  have hd := congrArg String.data h
  simp only [mkCand, String.data_append, List.append_assoc] at hd
  have h1 := List.append_cancel_left hd
  have h2 := List.append_cancel_left h1
  have h3 := List.append_cancel_right h2
  exact String.ext h3

/-- Linear search for a free candidate, mirroring the unbounded
`while True` loops of `ensure_unique_path` / `ensure_unique_target` /
`ensure_unique_dir`; the fuel is always instantiated large enough for the
search to succeed (see `findFree_not_mem`). -/
def findFree (occupied : List String) (f : Nat → String) : Nat → Nat → String
  | 0, c => f c
  | fuel + 1, c => if memb (f c) occupied then findFree occupied f fuel (c + 1) else f c

theorem findFree_not_mem (occupied : List String) (f : Nat → String) :
    ∀ fuel c, (∃ i, i ≤ fuel ∧ f (c + i) ∉ occupied) →
      findFree occupied f fuel c ∉ occupied := by
  intro fuel
  induction fuel with
  | zero =>
    intro c ⟨i, hi, hfree⟩
    have : i = 0 := by omega
    subst this
    simpa [findFree] using hfree
  | succ fuel ih =>
    intro c ⟨i, hi, hfree⟩
    by_cases hmem : memb (f c) occupied
    · simp only [findFree, if_pos hmem]
      apply ih
      have hi0 : i ≠ 0 := by
        intro h0
        subst h0
        simp only [Nat.add_zero] at hfree
        exact hfree (memb_iff.mp hmem)
      exact ⟨i - 1, by omega, by have : c + 1 + (i - 1) = c + i := by omega
                                 rw [this]; exact hfree⟩
    · simp only [findFree, if_neg hmem]
      intro hc
      exact hmem (memb_iff.mpr hc)

theorem exists_free (occupied : List String) (f : Nat → String)
    (hf : ∀ a b, f a = f b → a = b) (c : Nat) :
    ∃ i, i ≤ occupied.length ∧ f (c + i) ∉ occupied := by
  by_contra hno
  push_neg at hno
  set L := occupied.length with hL
  have hall : ∀ i ≤ L, f (c + i) ∈ occupied := hno
  let cand : List String := (List.range (L + 1)).map (fun i => f (c + i))
  have hnd : cand.Nodup := by
    apply List.Nodup.map
    · intro a b hab
      have := hf (c + a) (c + b) hab
      omega
    · exact List.nodup_range _
  have hsub : ∀ x ∈ cand, x ∈ occupied := by
    intro x hx
    simp only [cand, List.mem_map, List.mem_range] at hx
    obtain ⟨i, hi, rfl⟩ := hx
    exact hall i (by omega)
  have hcard1 : cand.toFinset.card = L + 1 := by
    rw [List.toFinset_card_of_nodup hnd]
    simp [cand]
  have hcard2 : cand.toFinset ⊆ occupied.toFinset := by
    intro x hx
    rw [List.mem_toFinset] at hx ⊢
    exact hsub x hx
  have := Finset.card_le_card hcard2
  have hoc := List.toFinset_card_le occupied
  omega

/-- Last index of a character in a list, if any. -/
def lastIdxOf (c : Char) : List Char → Option Nat
  | [] => none
  | x :: xs =>
    match lastIdxOf c xs with
    | some i => some (i + 1)
    | none => if x = c then some 0 else none

/-- `pathlib`'s split of a file name into `stem` and `suffix`: the suffix
starts at the last dot, provided that dot is neither the first nor the
last character; otherwise the suffix is empty. -/
def splitExt (s : String) : String × String :=
  match lastIdxOf '.' s.data with
  | none => (s, "")
  | some i =>
    if 0 < i ∧ i < s.data.length - 1 then (⟨s.data.take i⟩, ⟨s.data.drop i⟩)
    else (s, "")

/-- The collision-avoiding rename shared by `ensure_unique_path`
(merge_reversed_author_pairs.py, resolve_outlier_authors.py) and
`ensure_unique_target` (execute_full_transfer.py): if the name is free it
is returned unchanged, otherwise `<stem>_<c><suffix>` is tried for
`c = 2, 3, ...` until a free name is found. -/
def ensure_unique_path (occupied : List String) (p : String) : String :=
  if memb p occupied then
    findFree occupied (mkCand (splitExt p).1 (splitExt p).2) occupied.length 2
  else p

theorem ensure_unique_path_not_mem (occupied : List String) (p : String) :
    ensure_unique_path occupied p ∉ occupied := by
  unfold ensure_unique_path
  by_cases hmem : memb p occupied
  · rw [if_pos hmem]
    apply findFree_not_mem
    obtain ⟨i, hi, hfree⟩ :=
      exists_free occupied (mkCand (splitExt p).1 (splitExt p).2)
        (mkCand_inj _ _) 2
    exact ⟨i, hi, hfree⟩
  · rw [if_neg hmem]
    intro hc
    exact hmem (memb_iff.mpr hc)

/-- `ensure_unique_dir` of flag_outlier_authors.py: candidates are
`<name>_<c>` (the whole directory name, no extension split). -/
def ensure_unique_dir (occupied : List String) (p : String) : String :=
  if memb p occupied then findFree occupied (mkCand p "") occupied.length 2
  else p

theorem ensure_unique_dir_not_mem (occupied : List String) (p : String) :
    ensure_unique_dir occupied p ∉ occupied := by
  unfold ensure_unique_dir
  by_cases hmem : memb p occupied
  · rw [if_pos hmem]
    apply findFree_not_mem
    obtain ⟨i, hi, hfree⟩ := exists_free occupied (mkCand p "") (mkCand_inj _ _) 2
    exact ⟨i, hi, hfree⟩
  · rw [if_neg hmem]
    intro hc
    exact hmem (memb_iff.mpr hc)

end FsNames

namespace Scriptorium

open PyStr

/-- The filesystem-forbidden characters replaced by `safe_fs_name`
(regex `[<>:"/\\|?*]`). -/
def forb (c : Char) : Bool :=
  [ '<', '>', ':', '"', '/', '\\', '|', '?', '*' ].contains c

/-- The U+200B zero-width space removed by `safe_fs_name`. -/
def removeZwsp (s : String) : String :=
  ⟨s.data.filter (fun c => c ≠ '​')⟩

/-- `safe_fs_name`, identical in plan_full_transfer.py,
merge_reversed_author_pairs.py, resolve_outlier_authors.py,
flag_outlier_authors.py and sanitize_full_library.py: NFC-normalise
(identity in the model), drop zero-width spaces, trim, replace forbidden
characters by underscores, collapse whitespace runs and underscore runs,
strip leading/trailing space/dot/underscore, defaulting to "Untitled". -/
def safe_fs_name (name : String) : String :=
  let n1 := strip (removeZwsp name)
  let n2 : String := ⟨n1.data.map (fun c => if forb c then '_' else c)⟩
  let n3 := collapseWs n2
  let n4 := collapseUs n3
  let n5 := stripChars [' ', '.', '_'] n4
  if n5 = "" then "Untitled" else n5

/-- The lowercase name particles shared by `titlecase_firstname` and the
token-splitting branch of `normalize_author_dir_name`. -/
def particles : List String :=
  ["de", "du", "des", "le", "la", "van", "von", "del", "della", "di"]

/-- `titlecase_firstname`, identical in all five scripts: title-case each
whitespace-separated part, keeping known particles lowercase. -/
def titlecase_firstname (firstname : String) : String :=
  String.intercalate " "
    ((splitWs firstname).map (fun p =>
      if memb (lower p) particles then lower p else capFirst p))

/-- Synonyms mapped to the `Collectif` collective category. -/
def collectifSyn : List String :=
  ["collectif", "collective", "various", "various authors"]

/-- Synonyms mapped to the `Anonyme` collective category. -/
def anonymeSyn : List String :=
  ["anonyme", "anonymous", "unknown", "unknown author"]

/-- Synonyms mapped to the `Anthologie` collective category. -/
def anthologieSyn : List String := ["anthologie", "anthology"]

/-- The comma branch of `normalize_author_dir_name`: left side becomes the
upper-cased last name, right side the title-cased first name. -/
def normalizeCommaForm (a : String) : String :=
  let p := splitComma a
  let lastRaw := strip p.1
  let firstRaw := strip p.2
  let lastN := if lastRaw = "" then lastRaw else upper lastRaw
  let firstN := titlecase_firstname firstRaw
  safe_fs_name (if firstN = "" then lastN else lastN ++ ", " ++ firstN)

/-- The token-splitting of the no-comma branch for two or more tokens:
Python `tokens[-2:]` join as compound last name when the second-to-last
token is a particle (and there are at least three tokens), otherwise the
final token alone; the remaining tokens form the first name. -/
def lastFirstSplit (tokens : List String) : String × String :=
  match tokens.reverse with
  | [] => ("", "")
  | [t] => (t, "")
  | t1 :: t2 :: rest =>
    if rest ≠ [] ∧ memb (lower t2) particles then
      (t2 ++ " " ++ t1, String.intercalate " " rest.reverse)
    else
      (t1, String.intercalate " " (t2 :: rest).reverse)

/-- `normalize_author_dir_name` as it appears (identically) in
merge_reversed_author_pairs.py, resolve_outlier_authors.py and
flag_outlier_authors.py: the single-token branch lower-cases the tail and
the empty fallback is "Unknown Author". -/
def normalize_author_dir_name (author : String) : String :=
  let a := strip author
  let lowa := lower a
  if memb lowa collectifSyn then "Collectif"
  else if memb lowa anonymeSyn then "Anonyme"
  else if memb lowa anthologieSyn then "Anthologie"
  else if containsChar ',' a then normalizeCommaForm a
  else
    match splitWs a with
    | [] => "Unknown Author"
    | [t] => safe_fs_name (capFirstLowerRest t)
    | tokens =>
      let lf := lastFirstSplit tokens
      safe_fs_name (upper lf.1 ++ ", " ++ titlecase_firstname lf.2)

/-- Combining-diacritic test used to model `unicodedata.combining`
(main combining block U+0300..U+036F). -/
def isCombining (c : Char) : Bool := 0x300 ≤ c.toNat && c.toNat ≤ 0x36F

/-- `canonical_key` of plan_full_transfer.py / resolve_outlier_authors.py /
sanitize_full_library.py (named `normalize_for_key` in
validate_full_library.py): NFKD (identity in the model), drop combining
marks, lower-case, collapse whitespace, trim. -/
def canonical_key (name : String) : String :=
  let n0 : String := ⟨name.data.filter (fun c => ¬ isCombining c)⟩
  let n1 := lower n0
  strip (collapseWs n1)

end Scriptorium

namespace PlanFullTransfer

open PyStr Scriptorium

/-- `normalize_author_dir_name` of plan_full_transfer.py: identical to the
shared version except that the single-token branch preserves the tail of
the token (`tokens[0][:1].upper() + tokens[0][1:]`) and the empty fallback
is "Unknown". -/
def normalize_author_dir_name (author : String) : String :=
  let a := strip author
  let lowa := lower a
  if memb lowa collectifSyn then "Collectif"
  else if memb lowa anonymeSyn then "Anonyme"
  else if memb lowa anthologieSyn then "Anthologie"
  else if containsChar ',' a then normalizeCommaForm a
  else
    match splitWs a with
    | [] => "Unknown"
    | [t] => safe_fs_name (capFirst t)
    | tokens =>
      let lf := lastFirstSplit tokens
      safe_fs_name (upper lf.1 ++ ", " ++ titlecase_firstname lf.2)

end PlanFullTransfer

namespace MergeReversedAuthorPairs

open PyStr FsNames Scriptorium

/-- The four collective categories excluded from reversed-pair analysis. -/
def SPECIAL_AUTHORS : List String :=
  ["Collectif", "Anonyme", "Anthologie", "Unknown Author"]

/-- `normalize_token` of merge_reversed_author_pairs.py: NFKD (identity in
the model), drop combining marks, lower-case, trim, collapse whitespace. -/
def normalize_token (s : String) : String :=
  let n0 : String := ⟨s.data.filter (fun c => ¬ isCombining c)⟩
  let n1 := strip (lower n0)
  collapseWs n1

/-- `split_author_dir`: `none` for collective categories, names without a
comma, or names with an empty (trimmed) side; otherwise the pair of
normalized sides around the first comma. -/
def split_author_dir (name : String) : Option (String × String) :=
  if memb name SPECIAL_AUTHORS then none
  else if ¬ containsChar ',' name then none
  else
    let p := splitComma name
    let l := strip p.1
    let r := strip p.2
    if l = "" ∨ r = "" then none
    else some (normalize_token l, normalize_token r)

/-- Modelled from the spec's words (claim C7): the normalized
(diacritic-stripped, lower-cased, whitespace-collapsed) (left, right)
token pair of a comma-carrying directory name. -/
def spec_token_pair (name : String) : String × String :=
  let p := PyStr.splitComma name
  (normalize_token (PyStr.strip p.1), normalize_token (PyStr.strip p.2))

/-- The reversed-pair criterion applied by `find_reversed_pairs`: the two
directory names produce keys that are transposes of each other. -/
def is_reversed_pair (a b : String) : Bool :=
  match split_author_dir a, split_author_dir b with
  | some p, some q => p.1 == q.2 && p.2 == q.1
  | _, _ => false

theorem split_author_dir_some (x : String)
    (hx : PyStr.memb x SPECIAL_AUTHORS = false)
    (hcx : PyStr.containsChar ',' x = true)
    (hl : PyStr.strip (PyStr.splitComma x).1 ≠ "")
    (hr : PyStr.strip (PyStr.splitComma x).2 ≠ "") :
    split_author_dir x =
      some (normalize_token (PyStr.strip (PyStr.splitComma x).1),
        normalize_token (PyStr.strip (PyStr.splitComma x).2)) := by
  simp only [split_author_dir, hx, hcx]
  simp [hl, hr]

/-- The item-moving loop of `merge_pair`: each item of the two source
directories is moved into the destination directory after the
`ensure_unique_path` collision-avoiding rename.  The destination directory
is represented by the list of names it contains. -/
def merge_fold (dest : List String) : List String → List String
  | [] => dest
  | item :: rest => merge_fold (dest ++ [ensure_unique_path dest item]) rest

/-- `merge_pair` of merge_reversed_author_pairs.py, for a destination
directory distinct from both source directories: all items of `dir_a` then
`dir_b` are moved into the destination. -/
def merge_pair (itemsA itemsB destInit : List String) : List String :=
  merge_fold destInit (itemsA ++ itemsB)

theorem merge_fold_length (l : List String) :
    ∀ dest, (merge_fold dest l).length = dest.length + l.length := by
  induction l with
  | nil => intro dest; simp [merge_fold]
  | cons x xs ih =>
    intro dest
    simp only [merge_fold, ih, List.length_append, List.length_cons,
      List.length_nil]
    omega

theorem merge_fold_mem (l : List String) :
    ∀ dest, ∀ x ∈ dest, x ∈ merge_fold dest l := by
  induction l with
  | nil => intro dest x hx; simpa [merge_fold] using hx
  | cons y ys ih =>
    intro dest x hx
    exact ih _ x (List.mem_append_left _ hx)

theorem merge_fold_nodup (l : List String) :
    ∀ dest, dest.Nodup → (merge_fold dest l).Nodup := by
  induction l with
  | nil => intro dest h; simpa [merge_fold] using h
  | cons y ys ih =>
    intro dest h
    apply ih
    rw [List.nodup_append]
    exact ⟨h, List.nodup_singleton _,
      by simpa using fun hx => (ensure_unique_path_not_mem dest y) hx⟩

end MergeReversedAuthorPairs

/-- C1: `merge_pair` never overwrites a pre-existing distinct file —
collisions get numeric suffixes — and the destination afterwards holds the
pre-existing files plus exactly one file per source item; in particular,
merging two directories that both contain "Book.epub" into a fresh
destination yields the two distinct files "Book.epub" and "Book_2.epub". -/
theorem C1_merge_pair_collision_safety
    (itemsA itemsB destInit : List String) (h : destInit.Nodup) :
    (MergeReversedAuthorPairs.merge_pair itemsA itemsB destInit).Nodup ∧
    (∀ x ∈ destInit, x ∈ MergeReversedAuthorPairs.merge_pair itemsA itemsB destInit) ∧
    (MergeReversedAuthorPairs.merge_pair itemsA itemsB destInit).length =
      destInit.length + itemsA.length + itemsB.length ∧
    MergeReversedAuthorPairs.merge_pair ["Book.epub"] ["Book.epub"] [] =
      ["Book.epub", "Book_2.epub"] := by
  refine ⟨MergeReversedAuthorPairs.merge_fold_nodup _ _ h,
    fun x hx => MergeReversedAuthorPairs.merge_fold_mem _ _ x hx, ?_, by decide⟩
  show (MergeReversedAuthorPairs.merge_fold destInit (itemsA ++ itemsB)).length = _
  rw [MergeReversedAuthorPairs.merge_fold_length]
  simp only [List.length_append]
  omega

/-- Witness for C1 at concrete inputs. -/
theorem C1_merge_pair_collision_safety_witness :
    ([] : List String).Nodup ∧
    ((MergeReversedAuthorPairs.merge_pair ["Book.epub"] ["Book.epub"] []).Nodup ∧
      (∀ x ∈ ([] : List String),
        x ∈ MergeReversedAuthorPairs.merge_pair ["Book.epub"] ["Book.epub"] []) ∧
      (MergeReversedAuthorPairs.merge_pair ["Book.epub"] ["Book.epub"] []).length =
        ([] : List String).length + ["Book.epub"].length + ["Book.epub"].length ∧
      MergeReversedAuthorPairs.merge_pair ["Book.epub"] ["Book.epub"] [] =
        ["Book.epub", "Book_2.epub"]) :=
  ⟨by decide, C1_merge_pair_collision_safety ["Book.epub"] ["Book.epub"] [] (by decide)⟩

namespace ExecuteFullTransfer

open PyStr FsNames

/-- The data of one file: its byte size and its content (abstracted to a
natural number). -/
structure FileData where
  size : Nat
  content : Nat
deriving DecidableEq

/-- The target tree as an association list from absolute path to file
data; `path.exists()` is key membership. -/
abbrev Fs := List (String × FileData)

/-- Lookup of the file stored at a path. -/
def fsGet : Fs → String → Option FileData
  | [], _ => none
  | (q, g) :: rest, p => if q == p then some g else fsGet rest p

/-- The list of paths present in the store. -/
def fsKeys (fs : Fs) : List String := fs.map (fun e => e.1)

/-- `file_sha256`, modelled as an ideal (collision-free) hash: it returns
the abstract content. -/
def file_sha256 (f : FileData) : Nat := f.content

/-- `ensure_unique_target` of execute_full_transfer.py: identical
collision loop to `ensure_unique_path`, searching `<stem>_<c><suffix>`
for `c = 2, 3, ...`. -/
def ensure_unique_target (fs : Fs) (p : String) : String :=
  ensure_unique_path (fsKeys fs) p

/-- `copy_with_collision_handling`: if the destination exists, compare
hashes (when hashing is enabled) or sizes (when it is not) and skip on a
match; otherwise copy to a suffixed unique target.  Returns the final
destination, the status string and the updated store. -/
def copy_with_collision_handling (fs : Fs) (src dst : String) (computeHash : Bool) :
    String × String × Fs :=
  let srcF := (fsGet fs src).getD (FileData.mk 0 0)
  match fsGet fs dst with
  | some dstF =>
    if computeHash then
      if file_sha256 srcF = file_sha256 dstF then (dst, "skipped_same_hash", fs)
      else
        let d := ensure_unique_target fs dst
        (d, "copied", fs ++ ([(d, srcF)] : Fs))
    else
      if srcF.size = dstF.size then (dst, "skipped_same_size", fs)
      else
        let d := ensure_unique_target fs dst
        (d, "copied", fs ++ ([(d, srcF)] : Fs))
  | none => (dst, "copied", fs ++ ([(dst, srcF)] : Fs))

/-- The running state of `execute`: the store, the log lines
(status, source) and the two counters of the summary line. -/
structure ExecState where
  fs : Fs
  log : List (String × String)
  copied : Nat
  skipped : Nat
deriving DecidableEq

/-- One manifest entry of `execute`: a missing source is logged and
skipped, otherwise the copy/skip outcome is logged and counted. -/
def exec_entry (vh : Bool) (st : ExecState) (e : String × String) : ExecState :=
  if (fsGet st.fs e.1).isSome then
    let r := copy_with_collision_handling st.fs e.1 e.2 vh
    if strStarts r.2.1 "skipped" then
      ⟨r.2.2, st.log ++ [(r.2.1, e.1)], st.copied, st.skipped + 1⟩
    else
      ⟨r.2.2, st.log ++ [(r.2.1, e.1)], st.copied + 1, st.skipped⟩
  else
    ⟨st.fs, st.log ++ [("MISSING", e.1)], st.copied, st.skipped⟩

/-- The entry loop of `execute`. -/
def executeGo (vh : Bool) : List (String × String) → ExecState → ExecState
  | [], st => st
  | e :: rest, st => executeGo vh rest (exec_entry vh st e)

/-- `execute` of execute_full_transfer.py over an already-parsed manifest
(list of (source, target) pairs). -/
def execute (vh : Bool) (manifest : List (String × String)) (fs₀ : Fs) : ExecState :=
  executeGo vh manifest ⟨fs₀, [], 0, 0⟩

theorem fsGet_append (a b : Fs) (p : String) :
    fsGet (a ++ b) p =
      match fsGet a p with
      | some f => some f
      | none => fsGet b p := by
  induction a with
  | nil => simp [fsGet]
  | cons e rest ih =>
    match e with
    | (q, g) =>
      by_cases h : q = p
      · simp [fsGet, h]
      · simp [fsGet, h, ih]

theorem fsGet_eq_none_iff (fs : Fs) (p : String) :
    fsGet fs p = none ↔ p ∉ fsKeys fs := by
  induction fs with
  | nil => simp [fsGet, fsKeys]
  | cons e rest ih =>
    match e with
    | (q, g) =>
      by_cases h : q = p
      · simp [fsGet, fsKeys, h]
      · simp only [fsGet, beq_iff_eq, if_neg h, fsKeys, List.map_cons, List.mem_cons, ih]
        constructor
        · intro hn hc
          rcases hc with hc | hc
          · exact h hc.symm
          · exact hn hc
        · intro hn hc
          exact hn (Or.inr hc)

theorem fsGet_of_nodup_mem (fs : Fs) (p : String) (f : FileData)
    (hnd : (fsKeys fs).Nodup) (hmem : (p, f) ∈ fs) :
    fsGet fs p = some f := by
  induction fs with
  | nil => cases hmem
  | cons e rest ih =>
    match e, hmem, hnd with
    | (q, g), hmem, hnd =>
      simp only [fsKeys, List.map_cons, List.nodup_cons] at hnd
      rcases List.mem_cons.mp hmem with h | h
      · cases h
        simp [fsGet]
      · have hq : q ≠ p := by
          intro hqp
          subst hqp
          exact hnd.1 (List.mem_map.mpr ⟨(q, f), h, rfl⟩)
        simp only [fsGet, beq_iff_eq, if_neg hq]
        exact ih hnd.2 h

/-- The files a fresh first run adds: one entry per manifest row whose
source exists, at the row's target path. -/
def placed (fs₀ : Fs) : List (String × String) → Fs
  | [] => []
  | e :: rest =>
    match fsGet fs₀ e.1 with
    | some f => (e.2, f) :: placed fs₀ rest
    | none => placed fs₀ rest

theorem placed_congr (fs₁ fs₂ : Fs) :
    ∀ m : List (String × String), (∀ e ∈ m, fsGet fs₁ e.1 = fsGet fs₂ e.1) →
      placed fs₁ m = placed fs₂ m := by
  intro m
  induction m with
  | nil => intro _; rfl
  | cons e rest ih =>
    intro h
    have he := h e (List.mem_cons_self e rest)
    simp only [placed, he]
    rw [ih (fun x hx => h x (List.mem_cons_of_mem e hx))]

theorem placed_keys_sublist (fs₀ : Fs) :
    ∀ m : List (String × String), (fsKeys (placed fs₀ m)).Sublist (m.map (fun e => e.2)) := by
  intro m
  induction m with
  | nil => simp [placed, fsKeys]
  | cons e rest ih =>
    simp only [placed, List.map_cons]
    cases fsGet fs₀ e.1 with
    | some f => exact List.Sublist.cons₂ _ ih
    | none => exact List.Sublist.cons _ ih

theorem placed_mem (fs₀ : Fs) (e : String × String) (f : FileData) :
    ∀ m : List (String × String), e ∈ m → fsGet fs₀ e.1 = some f →
      (e.2, f) ∈ (placed fs₀ m : List (String × FileData)) := by
  intro m
  induction m with
  | nil => intro h; cases h
  | cons a rest ih =>
    intro hmem hget
    rcases List.mem_cons.mp hmem with h | h
    · subst h
      simp [placed, hget]
    · simp only [placed]
      cases fsGet fs₀ a.1 with
      | some g => exact List.mem_cons_of_mem _ (ih h hget)
      | none => exact ih h hget

theorem executeGo_fresh (vh : Bool) :
    ∀ (m : List (String × String)) (st : ExecState),
      (m.map (fun e => e.2)).Nodup →
      (∀ e ∈ m, fsGet st.fs e.2 = none) →
      (∀ e ∈ m, ∀ e2 ∈ m, e.2 ≠ e2.1) →
      (executeGo vh m st).fs = st.fs ++ placed st.fs m := by
  intro m
  induction m with
  | nil =>
    intro st _ _ _
    simp [executeGo, placed]
  | cons e rest ih =>
    intro st hnd hfresh hts
    simp only [List.map_cons, List.nodup_cons] at hnd
    have hde : fsGet st.fs e.2 = none := hfresh e (List.mem_cons_self e rest)
    simp only [executeGo]
    cases hsrc : fsGet st.fs e.1 with
    | none =>
      have hstep : exec_entry vh st e = ⟨st.fs, st.log ++ [("MISSING", e.1)],
          st.copied, st.skipped⟩ := by
        simp [exec_entry, hsrc]
      rw [hstep]
      have := ih ⟨st.fs, st.log ++ [("MISSING", e.1)], st.copied, st.skipped⟩ hnd.2
        (fun x hx => hfresh x (List.mem_cons_of_mem e hx))
        (fun x hx y hy => hts x (List.mem_cons_of_mem e hx) y (List.mem_cons_of_mem e hy))
      rw [this]
      simp only [placed, hsrc]
    | some f =>
      have hcopy : copy_with_collision_handling st.fs e.1 e.2 vh =
          (e.2, "copied", st.fs ++ [(e.2, f)]) := by
        simp [copy_with_collision_handling, hsrc, hde]
      have hstep : exec_entry vh st e = ⟨st.fs ++ [(e.2, f)],
          st.log ++ [("copied", e.1)], st.copied + 1, st.skipped⟩ := by
        simp only [exec_entry, hsrc, Option.isSome_some, if_pos, hcopy]
        have hcs : strStarts "copied" "skipped" = false := by decide
        simp [hcs]
      rw [hstep]
      have hfresh2 : ∀ x ∈ rest, fsGet (st.fs ++ [(e.2, f)]) x.2 = none := by
        intro x hx
        rw [fsGet_append]
        rw [hfresh x (List.mem_cons_of_mem e hx)]
        have hne : e.2 ≠ x.2 := by
          intro hcontra
          exact hnd.1 (hcontra ▸ List.mem_map.mpr ⟨x, hx, rfl⟩)
        simp [fsGet, hne]
      have := ih ⟨st.fs ++ [(e.2, f)], st.log ++ [("copied", e.1)],
          st.copied + 1, st.skipped⟩ hnd.2 hfresh2
        (fun x hx y hy => hts x (List.mem_cons_of_mem e hx) y (List.mem_cons_of_mem e hy))
      rw [this]
      have hsources : ∀ x ∈ rest, fsGet (st.fs ++ [(e.2, f)]) x.1 = fsGet st.fs x.1 := by
        intro x hx
        rw [fsGet_append]
        cases hx1 : fsGet st.fs x.1 with
        | some g => rfl
        | none =>
          have hne : e.2 ≠ x.1 :=
            hts e (List.mem_cons_self e rest) x (List.mem_cons_of_mem e hx)
          simp [fsGet, hne]
      rw [placed_congr _ _ rest hsources]
      simp only [placed, hsrc, List.append_assoc, List.singleton_append]

theorem executeGo_noop (vh : Bool) :
    ∀ (m : List (String × String)) (st : ExecState),
      (∀ e ∈ m, ∀ f, fsGet st.fs e.1 = some f → fsGet st.fs e.2 = some f) →
      (executeGo vh m st).fs = st.fs ∧
      (executeGo vh m st).copied = st.copied ∧
      ∀ l ∈ (executeGo vh m st).log,
        l ∈ st.log ∨ l.1 = "MISSING" ∨ strStarts l.1 "skipped" = true := by
  intro m
  induction m with
  | nil =>
    intro st _
    exact ⟨rfl, rfl, fun l hl => Or.inl hl⟩
  | cons e rest ih =>
    intro st h
    simp only [executeGo]
    cases hsrc : fsGet st.fs e.1 with
    | none =>
      have hstep : exec_entry vh st e = ⟨st.fs, st.log ++ [("MISSING", e.1)],
          st.copied, st.skipped⟩ := by
        simp [exec_entry, hsrc]
      rw [hstep]
      have hrec := ih ⟨st.fs, st.log ++ [("MISSING", e.1)], st.copied, st.skipped⟩
        (fun x hx => h x (List.mem_cons_of_mem e hx))
      refine ⟨hrec.1, hrec.2.1, fun l hl => ?_⟩
      rcases hrec.2.2 l hl with hmem | hrest
      · rcases List.mem_append.mp hmem with hmem | hmem
        · exact Or.inl hmem
        · simp only [List.mem_singleton] at hmem
          subst hmem
          exact Or.inr (Or.inl rfl)
      · exact Or.inr hrest
    | some f =>
      have hdst : fsGet st.fs e.2 = some f := h e (List.mem_cons_self e rest) f hsrc
      have hcopy : copy_with_collision_handling st.fs e.1 e.2 vh =
          (e.2, (if vh then "skipped_same_hash" else "skipped_same_size"), st.fs) := by
        cases vh <;> simp [copy_with_collision_handling, hsrc, hdst, file_sha256]
      have hskipName : strStarts (if vh then "skipped_same_hash" else "skipped_same_size")
          "skipped" = true := by
        cases vh <;> decide
      have hstep : exec_entry vh st e = ⟨st.fs,
          st.log ++ [((if vh then "skipped_same_hash" else "skipped_same_size"), e.1)],
          st.copied, st.skipped + 1⟩ := by
        simp only [exec_entry, hsrc, Option.isSome_some, if_pos, hcopy]
        simp [hskipName]
      rw [hstep]
      have hrec := ih ⟨st.fs,
          st.log ++ [((if vh then "skipped_same_hash" else "skipped_same_size"), e.1)],
          st.copied, st.skipped + 1⟩
        (fun x hx => h x (List.mem_cons_of_mem e hx))
      refine ⟨hrec.1, hrec.2.1, fun l hl => ?_⟩
      rcases hrec.2.2 l hl with hmem | hrest
      · rcases List.mem_append.mp hmem with hmem | hmem
        · exact Or.inl hmem
        · simp only [List.mem_singleton] at hmem
          subst hmem
          exact Or.inr (Or.inr hskipName)
      · exact Or.inr hrest

end ExecuteFullTransfer

/-- C3 (amended): when the computed target exists and source and target
have equal sizes, the entry is skipped with no new file — but only when
hash verification is disabled; with hashing enabled the size comparison is
not consulted and the entry is skipped exactly when the content hashes
match. -/
theorem C3_copy_skip_policy (fs : ExecuteFullTransfer.Fs) (src dst : String)
    (f g : ExecuteFullTransfer.FileData)
    (hs : ExecuteFullTransfer.fsGet fs src = some f)
    (hd : ExecuteFullTransfer.fsGet fs dst = some g)
    (hsz : f.size = g.size) :
    ExecuteFullTransfer.copy_with_collision_handling fs src dst false =
      (dst, "skipped_same_size", fs) ∧
    (f.content = g.content →
      ExecuteFullTransfer.copy_with_collision_handling fs src dst true =
        (dst, "skipped_same_hash", fs)) ∧
    (f.content ≠ g.content →
      (ExecuteFullTransfer.copy_with_collision_handling fs src dst true).2.1 =
        "copied") := by
  refine ⟨?_, ?_, ?_⟩
  · simp [ExecuteFullTransfer.copy_with_collision_handling, hs, hd, hsz]
  · intro hc
    simp [ExecuteFullTransfer.copy_with_collision_handling, hs, hd,
      ExecuteFullTransfer.file_sha256, hc]
  · intro hc
    simp [ExecuteFullTransfer.copy_with_collision_handling, hs, hd,
      ExecuteFullTransfer.file_sha256, hc]

/-- Witness for C3 at a concrete store. -/
theorem C3_copy_skip_policy_witness :
    ExecuteFullTransfer.fsGet
        [("s", ExecuteFullTransfer.FileData.mk 7 3), ("d", ExecuteFullTransfer.FileData.mk 7 3)]
        "s" = some (ExecuteFullTransfer.FileData.mk 7 3) ∧
    ExecuteFullTransfer.fsGet
        [("s", ExecuteFullTransfer.FileData.mk 7 3), ("d", ExecuteFullTransfer.FileData.mk 7 3)]
        "d" = some (ExecuteFullTransfer.FileData.mk 7 3) ∧
    (ExecuteFullTransfer.copy_with_collision_handling
        [("s", ExecuteFullTransfer.FileData.mk 7 3), ("d", ExecuteFullTransfer.FileData.mk 7 3)]
        "s" "d" false =
      ("d", "skipped_same_size",
        [("s", ExecuteFullTransfer.FileData.mk 7 3), ("d", ExecuteFullTransfer.FileData.mk 7 3)]) ∧
      ((ExecuteFullTransfer.FileData.mk 7 3).content =
          (ExecuteFullTransfer.FileData.mk 7 3).content →
        ExecuteFullTransfer.copy_with_collision_handling
            [("s", ExecuteFullTransfer.FileData.mk 7 3), ("d", ExecuteFullTransfer.FileData.mk 7 3)]
            "s" "d" true =
          ("d", "skipped_same_hash",
            [("s", ExecuteFullTransfer.FileData.mk 7 3), ("d", ExecuteFullTransfer.FileData.mk 7 3)])) ∧
      ((ExecuteFullTransfer.FileData.mk 7 3).content ≠
          (ExecuteFullTransfer.FileData.mk 7 3).content →
        (ExecuteFullTransfer.copy_with_collision_handling
            [("s", ExecuteFullTransfer.FileData.mk 7 3), ("d", ExecuteFullTransfer.FileData.mk 7 3)]
            "s" "d" true).2.1 = "copied")) :=
  ⟨by decide, by decide,
    C3_copy_skip_policy _ "s" "d" (ExecuteFullTransfer.FileData.mk 7 3)
      (ExecuteFullTransfer.FileData.mk 7 3) (by decide) (by decide) (by decide)⟩

/-- Counterexample to C3 as stated: source and target of equal size but
different content, with hash verification enabled, are not skipped — a
new suffixed file is created. -/
theorem C3_counterexample :
    (ExecuteFullTransfer.fsGet
        [("s", ExecuteFullTransfer.FileData.mk 5 1), ("t", ExecuteFullTransfer.FileData.mk 5 2)]
        "s").map ExecuteFullTransfer.FileData.size =
      (ExecuteFullTransfer.fsGet
        [("s", ExecuteFullTransfer.FileData.mk 5 1), ("t", ExecuteFullTransfer.FileData.mk 5 2)]
        "t").map ExecuteFullTransfer.FileData.size ∧
    (ExecuteFullTransfer.copy_with_collision_handling
        [("s", ExecuteFullTransfer.FileData.mk 5 1), ("t", ExecuteFullTransfer.FileData.mk 5 2)]
        "s" "t" true).2.1 = "copied" ∧
    (ExecuteFullTransfer.copy_with_collision_handling
        [("s", ExecuteFullTransfer.FileData.mk 5 1), ("t", ExecuteFullTransfer.FileData.mk 5 2)]
        "s" "t" true).2.2 =
      [("s", ExecuteFullTransfer.FileData.mk 5 1), ("t", ExecuteFullTransfer.FileData.mk 5 2),
        ("t_2", ExecuteFullTransfer.FileData.mk 5 1)] := by
  refine ⟨by decide, by decide, by decide⟩

open ExecuteFullTransfer in
/-- C4 (amended): re-running a manifest whose target paths are pairwise
distinct, none of which pre-exists in the target tree or names a source
path, is a no-op: the second run changes nothing, copies zero files, and
every entry is recorded skipped or missing. -/
theorem C4_executor_rerun_idempotent
    (manifest : List (String × String)) (fs₀ : ExecuteFullTransfer.Fs) (vh : Bool)
    (hnd : (manifest.map (fun e => e.2)).Nodup)
    (hfresh : ∀ e ∈ manifest, ExecuteFullTransfer.fsGet fs₀ e.2 = none)
    (hts : ∀ e ∈ manifest, ∀ e2 ∈ manifest, e.2 ≠ e2.1) :
    (execute vh manifest (execute vh manifest fs₀).fs).fs =
      (execute vh manifest fs₀).fs ∧
    (execute vh manifest (execute vh manifest fs₀).fs).copied = 0 ∧
    ∀ l ∈ (execute vh manifest (execute vh manifest fs₀).fs).log,
      l.1 = "MISSING" ∨ PyStr.strStarts l.1 "skipped" = true := by
  have hrun1 : (execute vh manifest fs₀).fs = fs₀ ++ placed fs₀ manifest :=
    executeGo_fresh vh manifest ⟨fs₀, [], 0, 0⟩ hnd hfresh hts
  have hpre : ∀ e ∈ manifest, ∀ f,
      fsGet ((execute vh manifest fs₀).fs) e.1 = some f →
      fsGet ((execute vh manifest fs₀).fs) e.2 = some f := by
    intro e he f hsome
    rw [hrun1] at hsome ⊢
    rw [fsGet_append] at hsome
    cases hsrc : fsGet fs₀ e.1 with
    | none =>
      exfalso
      rw [hsrc] at hsome
      have hnot : e.1 ∉ fsKeys (placed fs₀ manifest) := by
        intro hc
        have hsub := placed_keys_sublist fs₀ manifest
        have : e.1 ∈ manifest.map (fun x => x.2) := hsub.subset hc
        obtain ⟨e2, he2, heq⟩ := List.mem_map.mp this
        exact hts e2 he2 e he heq
      rw [(fsGet_eq_none_iff _ _).mpr hnot] at hsome
      cases hsome
    | some g =>
      rw [hsrc] at hsome
      have hfg : g = f := by
        injection hsome
      subst hfg
      have hmem := placed_mem fs₀ e g manifest he hsrc
      have hkeysnd : (fsKeys (placed fs₀ manifest)).Nodup :=
        (placed_keys_sublist fs₀ manifest).nodup hnd
      have hplaced : fsGet (placed fs₀ manifest) e.2 = some g :=
        fsGet_of_nodup_mem _ _ _ hkeysnd hmem
      rw [fsGet_append, hfresh e he]
      exact hplaced
  have hnoop := executeGo_noop vh manifest ⟨(execute vh manifest fs₀).fs, [], 0, 0⟩ hpre
  refine ⟨hnoop.1, hnoop.2.1, fun l hl => ?_⟩
  rcases hnoop.2.2 l hl with hm | hm
  · cases hm
  · exact hm

/-- Witness for C4 at a concrete manifest and store. -/
theorem C4_executor_rerun_idempotent_witness :
    ((([("a", "b")] : List (String × String)).map (fun e => e.2)).Nodup) ∧
    (∀ e ∈ ([("a", "b")] : List (String × String)),
      ExecuteFullTransfer.fsGet [("a", ExecuteFullTransfer.FileData.mk 1 1)] e.2 = none) ∧
    (∀ e ∈ ([("a", "b")] : List (String × String)),
      ∀ e2 ∈ ([("a", "b")] : List (String × String)), e.2 ≠ e2.1) ∧
    ((ExecuteFullTransfer.execute false [("a", "b")]
        (ExecuteFullTransfer.execute false [("a", "b")]
          [("a", ExecuteFullTransfer.FileData.mk 1 1)]).fs).fs =
      (ExecuteFullTransfer.execute false [("a", "b")]
        [("a", ExecuteFullTransfer.FileData.mk 1 1)]).fs ∧
    (ExecuteFullTransfer.execute false [("a", "b")]
        (ExecuteFullTransfer.execute false [("a", "b")]
          [("a", ExecuteFullTransfer.FileData.mk 1 1)]).fs).copied = 0 ∧
    ∀ l ∈ (ExecuteFullTransfer.execute false [("a", "b")]
        (ExecuteFullTransfer.execute false [("a", "b")]
          [("a", ExecuteFullTransfer.FileData.mk 1 1)]).fs).log,
      l.1 = "MISSING" ∨ PyStr.strStarts l.1 "skipped" = true) :=
  ⟨by decide, by decide, by decide,
    C4_executor_rerun_idempotent [("a", "b")] [("a", ExecuteFullTransfer.FileData.mk 1 1)]
      false (by decide) (by decide) (by decide)⟩

/-- Counterexample to C4 as stated: with a duplicate target path in the
manifest (a predicted collision) and a pre-existing different-size file at
a target, the re-run copies two more files instead of being a no-op. -/
theorem C4_counterexample :
    (ExecuteFullTransfer.execute false [("s1", "t"), ("s2", "u"), ("s3", "u")]
        (ExecuteFullTransfer.execute false [("s1", "t"), ("s2", "u"), ("s3", "u")]
          [("t", ExecuteFullTransfer.FileData.mk 1 10), ("s1", ExecuteFullTransfer.FileData.mk 2 11),
            ("s2", ExecuteFullTransfer.FileData.mk 3 12),
            ("s3", ExecuteFullTransfer.FileData.mk 4 13)]).fs).copied = 2 ∧
    (ExecuteFullTransfer.execute false [("s1", "t"), ("s2", "u"), ("s3", "u")]
        (ExecuteFullTransfer.execute false [("s1", "t"), ("s2", "u"), ("s3", "u")]
          [("t", ExecuteFullTransfer.FileData.mk 1 10), ("s1", ExecuteFullTransfer.FileData.mk 2 11),
            ("s2", ExecuteFullTransfer.FileData.mk 3 12),
            ("s3", ExecuteFullTransfer.FileData.mk 4 13)]).fs).fs.length =
      (ExecuteFullTransfer.execute false [("s1", "t"), ("s2", "u"), ("s3", "u")]
          [("t", ExecuteFullTransfer.FileData.mk 1 10), ("s1", ExecuteFullTransfer.FileData.mk 2 11),
            ("s2", ExecuteFullTransfer.FileData.mk 3 12),
            ("s3", ExecuteFullTransfer.FileData.mk 4 13)]).fs.length + 2 := by
  refine ⟨by decide, by decide⟩

namespace ResolveOutlierAuthors

open PyStr FsNames Scriptorium

/-- One outlier directory together with its destination: the epub files
(with the author strings the metadata reader returned for each; a parse
failure contributes the empty list), the non-epub items, and the contents
of the destination author directory. -/
structure OutlierState where
  epubs : List (String × List String)
  others : List String
  dest : List String
deriving DecidableEq

/-- `collect_author_votes`: one vote per author string, tallied by the
`canonical_key` of the normalized display form. -/
def author_votes (epubs : List (String × List String)) : List String :=
  ((epubs.map (fun e => e.2)).flatten).map
    (fun a => canonical_key (normalize_author_dir_name a))

/-- The count of the plurality winner (`votes.most_common(1)[0][1]`):
the maximal multiplicity in the vote list. -/
def topCount (votes : List String) : Nat :=
  (votes.map (fun k => votes.count k)).foldr max 0

/-- The epub-moving loop of the confident branch: each epub is moved into
the destination directory after the `ensure_unique_path` rename. -/
def move_fold (dest : List String) : List String → List String
  | [] => dest
  | item :: rest => move_fold (dest ++ [ensure_unique_path dest item]) rest

/-- `resolve_outlier_dir` of resolve_outlier_authors.py.  The majority
threshold is the rational `thrNum / thrDen` (default 4/5 = 0.8); the
Python float comparison `top_ratio >= majority_threshold` is modelled as
the exact rational comparison.  Returns the updated state and the actions
list. -/
def resolve_outlier_dir (st : OutlierState) (thrNum thrDen : Nat) :
    OutlierState × List String :=
  if st.epubs.isEmpty then (st, ["no_epubs_found"])
  else
    let votes := author_votes st.epubs
    if votes.length = 0 then (st, ["no_authors_in_metadata"])
    else
      if votes.dedup.length = 1 ∨ thrNum * votes.length ≤ thrDen * topCount votes then
        (⟨[], st.others, move_fold st.dest (st.epubs.map (fun e => e.1))⟩, ["moved"])
      else (st, ["ambiguous_authors"])

end ResolveOutlierAuthors

/-- C5: outlier resolution mutates the filesystem exactly when the vote
is confident — the directory has epub files, the metadata produced at
least one vote, and either there is exactly one distinct canonical key or
the plurality count reaches the threshold share of the total.  A 1/1/1
three-way split and the `no_authors_in_metadata` outcome leave the state
untouched (shown at the default threshold 4/5 = 0.8). -/
theorem C5_resolver_mutates_iff_confident
    (st : ResolveOutlierAuthors.OutlierState) (tn td : Nat) :
    ((ResolveOutlierAuthors.resolve_outlier_dir st tn td).1 ≠ st ↔
      (st.epubs ≠ [] ∧ ResolveOutlierAuthors.author_votes st.epubs ≠ [] ∧
        ((ResolveOutlierAuthors.author_votes st.epubs).dedup.length = 1 ∨
          tn * (ResolveOutlierAuthors.author_votes st.epubs).length ≤
            td * ResolveOutlierAuthors.topCount
              (ResolveOutlierAuthors.author_votes st.epubs)))) ∧
    (ResolveOutlierAuthors.resolve_outlier_dir
        ⟨[("a.epub", ["Ann Alpha"]), ("b.epub", ["Bob Beta"]), ("c.epub", ["Cid Gamma"])],
          [], []⟩ 4 5).1 =
      ⟨[("a.epub", ["Ann Alpha"]), ("b.epub", ["Bob Beta"]), ("c.epub", ["Cid Gamma"])],
        [], []⟩ ∧
    (ResolveOutlierAuthors.resolve_outlier_dir
        ⟨[("a.epub", [])], ["x.txt"], ["k"]⟩ 4 5).1 =
      ⟨[("a.epub", [])], ["x.txt"], ["k"]⟩ ∧
    (ResolveOutlierAuthors.resolve_outlier_dir
        ⟨[("a.epub", [])], ["x.txt"], ["k"]⟩ 4 5).2 = ["no_authors_in_metadata"] := by
  refine ⟨?_, by decide, by decide, by decide⟩
  unfold ResolveOutlierAuthors.resolve_outlier_dir
  by_cases he : st.epubs.isEmpty
  · rw [if_pos he]
    simp only [ne_eq, not_true_eq_false, false_iff, not_and]
    intro hne
    exact absurd (List.isEmpty_iff.mp he) hne
  · rw [if_neg he]
    have hne : st.epubs ≠ [] := fun hc => he (List.isEmpty_iff.mpr hc)
    by_cases hv : (ResolveOutlierAuthors.author_votes st.epubs).length = 0
    · simp only [if_pos hv]
      have hvnil : ResolveOutlierAuthors.author_votes st.epubs = [] :=
        List.length_eq_zero.mp hv
      simp [hvnil]
    · simp only [if_neg hv]
      have hvne : ResolveOutlierAuthors.author_votes st.epubs ≠ [] := by
        intro hc
        exact hv (by rw [hc]; rfl)
      by_cases hcond : (ResolveOutlierAuthors.author_votes st.epubs).dedup.length = 1 ∨
          tn * (ResolveOutlierAuthors.author_votes st.epubs).length ≤
            td * ResolveOutlierAuthors.topCount (ResolveOutlierAuthors.author_votes st.epubs)
      · rw [if_pos hcond]
        simp only [ne_eq]
        constructor
        · intro _
          exact ⟨hne, hvne, hcond⟩
        · intro _ hceq
          have : ([] : List (String × List String)) = st.epubs :=
            congrArg ResolveOutlierAuthors.OutlierState.epubs hceq
          exact hne this.symm
      · rw [if_neg hcond]
        simp only [ne_eq, not_true_eq_false, false_iff, not_and]
        intro _ _
        exact hcond

namespace FlagOutlierAuthors

open PyStr FsNames Scriptorium

/-- The four special author categories accepted verbatim. -/
def SPECIAL_AUTHORS : List String :=
  ["Collectif", "Anonyme", "Anthologie", "Unknown Author"]

/-- Character class `[A-ZÀ-ÖØ-Þ]` (upper-case initial of a single-word
author). -/
def upperLetter1 (c : Char) : Bool :=
  (65 ≤ c.toNat && c.toNat ≤ 90) || (192 ≤ c.toNat && c.toNat ≤ 214) ||
    (216 ≤ c.toNat && c.toNat ≤ 222)

/-- Character class `[a-zà-öø-ÿ'’.\-]` (tail of a single-word author). -/
def lowerTail (c : Char) : Bool :=
  (97 ≤ c.toNat && c.toNat ≤ 122) || (224 ≤ c.toNat && c.toNat ≤ 246) ||
    (248 ≤ c.toNat && c.toNat ≤ 255) || c.toNat = 39 || c = '’' ||
    c = '.' || c = '-'

/-- Character class `[A-Z0-9À-ÖØ-Þ '’.\-]` (last-name part). -/
def lastNameChar (c : Char) : Bool :=
  (65 ≤ c.toNat && c.toNat ≤ 90) || (48 ≤ c.toNat && c.toNat ≤ 57) ||
    (192 ≤ c.toNat && c.toNat ≤ 214) || (216 ≤ c.toNat && c.toNat ≤ 222) ||
    c = ' ' || c.toNat = 39 || c = '’' || c = '.' || c = '-'

/-- Character class `[A-ZÀ-ÖØ-ß]` (first character of the first name). -/
def firstInitChar (c : Char) : Bool :=
  (65 ≤ c.toNat && c.toNat ≤ 90) || (192 ≤ c.toNat && c.toNat ≤ 214) ||
    (216 ≤ c.toNat && c.toNat ≤ 223)

/-- `is_conforming_author_dir` of flag_outlier_authors.py: special names
pass; outlier-tagged names fail; a name without comma or space must match
`^[A-ZÀ-ÖØ-Þ][a-zà-öø-ÿ'’.\-]*$`; otherwise the name must have exactly
one comma with both trimmed sides nonempty, the last name matching
`^[A-Z0-9À-ÖØ-Þ '’.\-]+$` and the first name starting `[A-ZÀ-ÖØ-ß]`. -/
def is_conforming_author_dir (name : String) : Bool :=
  if memb name SPECIAL_AUTHORS then true
  else if strStarts name "__OUTLIER__ " then false
  else if !containsChar ',' name && !containsChar ' ' name then
    match name.data with
    | [] => false
    | c :: rest => upperLetter1 c && rest.all lowerTail
  else if name.data.count ',' ≠ 1 then false
  else
    let p := splitComma name
    let lastS := strip p.1
    let firstS := strip p.2
    if lastS = "" ∨ firstS = "" then false
    else if !(lastS.data.all lastNameChar) then false
    else
      match firstS.data with
      | [] => false
      | c :: _ => firstInitChar c

/-- Code-point lexicographic comparison of character lists (Python string
comparison). -/
def lexLe : List Char → List Char → Bool
  | [], _ => true
  | _ :: _, [] => false
  | a :: as, b :: bs =>
    if a.toNat < b.toNat then true
    else if b.toNat < a.toNat then false
    else lexLe as bs

/-- The sort key of `process_authors`: compare lower-cased names. -/
def leLower (a b : String) : Bool := lexLe (lower a).data (lower b).data

/-- Stable insertion into a sorted list. -/
def insertSorted (a : String) : List String → List String
  | [] => [a]
  | b :: l => if leLower a b then a :: b :: l else b :: insertSorted a l

/-- A stable sort by lower-cased name, modelling Python
`sorted(authors, key=lambda p: p.name.lower())`. -/
def sortByLower : List String → List String
  | [] => []
  | a :: l => insertSorted a (sortByLower l)

theorem insertSorted_perm (a : String) :
    ∀ l : List String, (insertSorted a l).Perm (a :: l) := by
  intro l
  induction l with
  | nil => simp [insertSorted]
  | cons b l ih =>
    by_cases h : leLower a b
    · simp [insertSorted, h]
    · simp only [insertSorted, if_neg h]
      exact (ih.cons b).trans (List.Perm.swap a b l)

theorem sortByLower_perm : ∀ l : List String, (sortByLower l).Perm l := by
  intro l
  induction l with
  | nil => simp [sortByLower]
  | cons a l ih =>
    exact (insertSorted_perm a (sortByLower l)).trans (ih.cons a)

/-- The state of a flag pass: the current directory names of the library
root, and whether some FIX rename has had to take a numeric suffix
because its canonical target already existed. -/
structure FlagState where
  dirs : List String
  collision : Bool
deriving DecidableEq

/-- One directory of the `process_authors` loop (case-sensitive
filesystem model, so `merge_or_rename` always renames): conforming names
are kept; a name normalizable to a conforming canonical name is renamed
to it (with a fresh suffixed name if the target exists — recorded in the
`collision` flag); anything else is renamed to a fresh
`__OUTLIER__ `-prefixed name. -/
def flag_step (st : FlagState) (d : String) : FlagState :=
  if is_conforming_author_dir d then st
  else
    let canon := normalize_author_dir_name d
    if is_conforming_author_dir canon then
      if memb canon st.dirs then
        ⟨(st.dirs.erase d) ++ [ensure_unique_dir st.dirs canon], true⟩
      else ⟨(st.dirs.erase d) ++ [canon], st.collision⟩
    else
      ⟨(st.dirs.erase d) ++
        [ensure_unique_dir st.dirs ("__OUTLIER__ " ++ safe_fs_name d)], st.collision⟩

/-- `process_authors` of flag_outlier_authors.py: fold the step over the
name-sorted snapshot of the author directories. -/
def process_authors (dirs : List String) : FlagState :=
  (sortByLower dirs).foldl flag_step ⟨dirs, false⟩

theorem flag_step_mono (st : FlagState) (d : String) :
    st.collision = true → (flag_step st d).collision = true := by
  intro h
  unfold flag_step
  by_cases h1 : is_conforming_author_dir d
  · simpa [h1]
  · simp only [h1, Bool.false_eq_true, if_false]
    by_cases h2 : is_conforming_author_dir (normalize_author_dir_name d)
    · simp only [h2, if_true]
      by_cases h3 : memb (normalize_author_dir_name d) st.dirs
      · simp [h3]
      · simp [h3, h]
    · simp [h2, h]

theorem flag_fold_mono :
    ∀ (queue : List String) (st : FlagState), st.collision = true →
      (queue.foldl flag_step st).collision = true := by
  intro queue
  induction queue with
  | nil => intro st h; exact h
  | cons d rest ih =>
    intro st h
    exact ih (flag_step st d) (flag_step_mono st d h)

theorem strStarts_of_starts_append (p pre q : String)
    (h : strStarts p pre = true) : strStarts (p ++ q) pre = true := by
  simp only [strStarts, List.isPrefixOf_iff_prefix, String.data_append] at h ⊢
  exact h.trans (List.prefix_append _ _)

theorem findFree_starts (occupied : List String) (f : Nat → String) (pre : String)
    (hall : ∀ k, strStarts (f k) pre = true) :
    ∀ fuel c, strStarts (findFree occupied f fuel c) pre = true := by
  intro fuel
  induction fuel with
  | zero => intro c; exact hall c
  | succ fuel ih =>
    intro c
    by_cases h : memb (f c) occupied
    · simp only [findFree, if_pos h]
      exact ih (c + 1)
    · simp only [findFree, if_neg h]
      exact hall c

theorem ensure_unique_dir_starts (occupied : List String) (p pre : String)
    (h : strStarts p pre = true) :
    strStarts (ensure_unique_dir occupied p) pre = true := by
  unfold ensure_unique_dir
  by_cases hmem : memb p occupied
  · rw [if_pos hmem]
    apply findFree_starts
    intro k
    show strStarts (p ++ "_" ++ natToString k ++ "") pre = true
    rw [show p ++ "_" ++ natToString k ++ "" = p ++ ("_" ++ natToString k ++ "") from by
      simp [String.ext_iff, String.data_append, List.append_assoc]]
    exact strStarts_of_starts_append p pre _ h
  · rw [if_neg hmem]
    exact h

/-- The invariant a clean flag pass establishes for every directory it has
produced: the name conforms or carries the outlier tag. -/
def OkDir (x : String) : Prop :=
  is_conforming_author_dir x = true ∨ strStarts x "__OUTLIER__ " = true

theorem flag_fold_ok :
    ∀ (queue : List String) (st : FlagState),
      st.dirs.Nodup → queue.Nodup →
      (∀ q ∈ queue, q ∈ st.dirs) →
      (∀ x ∈ st.dirs, x ∉ queue → OkDir x) →
      (queue.foldl flag_step st).collision = false →
      ∀ x ∈ (queue.foldl flag_step st).dirs, OkDir x := by
  intro queue
  induction queue with
  | nil =>
    intro st _ _ _ hok _ x hx
    exact hok x hx (List.not_mem_nil x)
  | cons d rest ih =>
    intro st hnd hqnd hqmem hok hcol x hx
    simp only [List.foldl_cons] at hcol hx
    have hdrest : d ∉ rest := (List.nodup_cons.mp hqnd).1
    have hrestnd : rest.Nodup := (List.nodup_cons.mp hqnd).2
    by_cases h1 : is_conforming_author_dir d
    · have hstep : flag_step st d = st := by simp [flag_step, h1]
      rw [hstep] at hcol hx
      refine ih st hnd hrestnd (fun q hq => hqmem q (List.mem_cons_of_mem d hq))
        (fun y hy hyn => ?_) hcol x hx
      by_cases hyd : y = d
      · exact Or.inl (hyd ▸ h1)
      · exact hok y hy (fun hc => by
          rcases List.mem_cons.mp hc with hc | hc
          · exact hyd hc
          · exact hyn hc)
    · by_cases h2 : is_conforming_author_dir (normalize_author_dir_name d)
      · by_cases h3 : memb (normalize_author_dir_name d) st.dirs
        · exfalso
          have hstep : (flag_step st d).collision = true := by
            simp [flag_step, h1, h2, h3]
          rw [flag_fold_mono rest (flag_step st d) hstep] at hcol
          cases hcol
        · have hstep : flag_step st d =
              ⟨(st.dirs.erase d) ++ [normalize_author_dir_name d], st.collision⟩ := by
            simp [flag_step, h1, h2, h3]
          rw [hstep] at hcol hx
          have hcanon : normalize_author_dir_name d ∉ st.dirs := by
            intro hc
            rw [memb_iff.mpr hc] at h3
            exact h3 rfl
          have hnd2 : ((st.dirs.erase d) ++ [normalize_author_dir_name d]).Nodup := by
            rw [List.nodup_append]
            exact ⟨hnd.erase d, List.nodup_singleton _, fun y hy hmem => by
              simp only [List.mem_singleton] at hmem
              subst hmem
              exact hcanon (List.erase_subset _ _ hy)⟩
          refine ih _ hnd2 hrestnd (fun q hq => ?_) (fun y hy hyn => ?_) hcol x hx
          · apply List.mem_append_left
            have hqd : q ≠ d := by
              intro hc
              subst hc
              exact hdrest hq
            rw [List.mem_erase_of_ne hqd]
            exact hqmem q (List.mem_cons_of_mem d hq)
          · rcases List.mem_append.mp hy with hy | hy
            · have hyd : y ≠ d := ((hnd.mem_erase_iff).mp hy).1
              exact hok y (List.erase_subset _ _ hy) (fun hc => by
                rcases List.mem_cons.mp hc with hc | hc
                · exact hyd hc
                · exact hyn hc)
            · simp only [List.mem_singleton] at hy
              subst hy
              exact Or.inl h2
      · have hstep : flag_step st d =
            ⟨(st.dirs.erase d) ++
              [ensure_unique_dir st.dirs ("__OUTLIER__ " ++ safe_fs_name d)],
              st.collision⟩ := by
          simp [flag_step, h1, h2]
        rw [hstep] at hcol hx
        have hfresh := ensure_unique_dir_not_mem st.dirs
          ("__OUTLIER__ " ++ safe_fs_name d)
        have hnd2 : ((st.dirs.erase d) ++
            [ensure_unique_dir st.dirs ("__OUTLIER__ " ++ safe_fs_name d)]).Nodup := by
          rw [List.nodup_append]
          exact ⟨hnd.erase d, List.nodup_singleton _, fun y hy hmem => by
            simp only [List.mem_singleton] at hmem
            subst hmem
            exact hfresh (List.erase_subset _ _ hy)⟩
        refine ih _ hnd2 hrestnd (fun q hq => ?_) (fun y hy hyn => ?_) hcol x hx
        · apply List.mem_append_left
          have hqd : q ≠ d := by
            intro hc
            subst hc
            exact hdrest hq
          rw [List.mem_erase_of_ne hqd]
          exact hqmem q (List.mem_cons_of_mem d hq)
        · rcases List.mem_append.mp hy with hy | hy
          · have hyd : y ≠ d := ((hnd.mem_erase_iff).mp hy).1
            exact hok y (List.erase_subset _ _ hy) (fun hc => by
              rcases List.mem_cons.mp hc with hc | hc
              · exact hyd hc
              · exact hyn hc)
          · simp only [List.mem_singleton] at hy
            subst hy
            exact Or.inr (ensure_unique_dir_starts st.dirs _ "__OUTLIER__ "
              (strStarts_of_starts_append _ _ _ (by decide)))

end FlagOutlierAuthors

/-- C6 (amended): after a full flag pass in which no FIX rename had to
take a numeric suffix (`collision = false`), every directory that fails
the canonical grammar carries the `__OUTLIER__ ` prefix; and
unconditionally, every name carrying the prefix fails the grammar check.
(With a rename collision the first half fails: see the counterexample,
where the pass produces the untagged non-conforming name "Hello_2".) -/
theorem C6_flag_pass_outlier_invariant (dirs : List String)
    (hnd : dirs.Nodup)
    (hcol : (FlagOutlierAuthors.process_authors dirs).collision = false) :
    (∀ d ∈ (FlagOutlierAuthors.process_authors dirs).dirs,
      ¬ FlagOutlierAuthors.is_conforming_author_dir d = true →
        PyStr.strStarts d "__OUTLIER__ " = true) ∧
    (∀ name : String, PyStr.strStarts name "__OUTLIER__ " = true →
      FlagOutlierAuthors.is_conforming_author_dir name = false) := by
  constructor
  · intro d hd hnc
    have hqnd : (FlagOutlierAuthors.sortByLower dirs).Nodup :=
      ((FlagOutlierAuthors.sortByLower_perm dirs).nodup_iff).mpr hnd
    have hok := FlagOutlierAuthors.flag_fold_ok (FlagOutlierAuthors.sortByLower dirs)
      ⟨dirs, false⟩ hnd hqnd
      (fun q hq => (FlagOutlierAuthors.sortByLower_perm dirs).mem_iff.mp hq)
      (fun x hx hxn => absurd
        (((FlagOutlierAuthors.sortByLower_perm dirs).mem_iff).mpr hx) hxn)
      hcol d hd
    rcases hok with hok | hok
    · exact absurd hok hnc
    · exact hok
  · intro name h
    by_cases hm : PyStr.memb name FlagOutlierAuthors.SPECIAL_AUTHORS = true
    · exfalso
      have := PyStr.memb_iff.mp hm
      simp only [FlagOutlierAuthors.SPECIAL_AUTHORS, List.mem_cons,
        List.mem_singleton] at this
      rcases this with rfl | rfl | rfl | rfl | hc
      · revert h; decide
      · revert h; decide
      · revert h; decide
      · revert h; decide
      · cases hc
    · simp only [FlagOutlierAuthors.is_conforming_author_dir,
        Bool.not_eq_true] at hm ⊢
      rw [hm, h]
      simp

/-- Witness for C6 at a one-directory library whose name is fixed to a
fresh conforming name (no collision). -/
theorem C6_flag_pass_outlier_invariant_witness :
    (["smith?"] : List String).Nodup ∧
    (FlagOutlierAuthors.process_authors ["smith?"]).collision = false ∧
    ((∀ d ∈ (FlagOutlierAuthors.process_authors ["smith?"]).dirs,
      ¬ FlagOutlierAuthors.is_conforming_author_dir d = true →
        PyStr.strStarts d "__OUTLIER__ " = true) ∧
    (∀ name : String, PyStr.strStarts name "__OUTLIER__ " = true →
      FlagOutlierAuthors.is_conforming_author_dir name = false)) :=
  ⟨by decide, by decide,
    C6_flag_pass_outlier_invariant ["smith?"] (by decide) (by decide)⟩

/-- Counterexample to C6 as stated: flagging the library
["Hello", "hello?"] renames "hello?" to the suffixed "Hello_2", which
neither conforms to the grammar nor carries the outlier prefix. -/
theorem C6_counterexample :
    "Hello_2" ∈ (FlagOutlierAuthors.process_authors ["Hello", "hello?"]).dirs ∧
    FlagOutlierAuthors.is_conforming_author_dir "Hello_2" = false ∧
    PyStr.strStarts "Hello_2" "__OUTLIER__ " = false := by
  refine ⟨by decide, by decide, by decide⟩

namespace ValidateFullLibrary

open PyStr FsNames Scriptorium

/-- The extension policy of the full library. -/
def BOOK_EXTENSIONS : List String := [".epub"]

/-- `is_book_file`: the lower-cased suffix is within policy. -/
def is_book_file (name : String) : Bool :=
  memb (lower (splitExt name).2) BOOK_EXTENSIONS

/-- The library tree seen by the Validator: the loose files at the root
and, per author directory, its name and the names of the files in it. -/
structure Library where
  rootFiles : List String
  authors : List (String × List String)
deriving DecidableEq

/-- The issues list computed by `validate` of validate_full_library.py:
loose root files, duplicate canonical author keys, forbidden characters in
author names, non-EPUB files among the collected book files (note that
`full_books` is pre-filtered by `is_book_file`), and forbidden characters
in book filenames.  Issue text is condensed but each category contributes
exactly when the code's does. -/
def validate (lib : Library) : List String :=
  let rootIssues := lib.rootFiles.map
    (fun n => "Unexpected file at full_library root: " ++ n)
  let authorNames := lib.authors.map (fun a => a.1)
  let full_books := (lib.authors.map (fun a => a.2.filter is_book_file)).flatten
  let keys := authorNames.map canonical_key
  let dupKeys := keys.dedup.filter (fun k => 1 < keys.count k)
  let dupIssues := if dupKeys.isEmpty then ([] : List String) else
    ("Duplicate author keys detected: " ++ natToString dupKeys.length) ::
      dupKeys.map (fun k => "  DUP: " ++ k)
  let forbAuthorIssues := (authorNames.filter (fun n => n.data.any forb)).map
    (fun n => "Forbidden char in author dir name: " ++ n)
  let non_epub := full_books.filter
    (fun f => !memb (lower (splitExt f).2) BOOK_EXTENSIONS)
  let nonEpubIssues := if non_epub.isEmpty then ([] : List String) else
    ["Non-EPUB files found: " ++ natToString non_epub.length]
  let forbFileIssues := (full_books.filter (fun f => f.data.any forb)).map
    (fun f => "Forbidden char in filename: " ++ f)
  rootIssues ++ dupIssues ++ forbAuthorIssues ++ nonEpubIssues ++ forbFileIssues

/-- The process exit status of `main`: 2 when any issue was found,
otherwise 0. -/
def exit_code (lib : Library) : Nat := if (validate lib).isEmpty then 0 else 2

end ValidateFullLibrary

/-- C8: fails on the code.  A library whose author directory contains the
non-EPUB file "notes.txt" produces an empty issues list and exit status 0:
`full_books` only collects files passing `is_book_file`, so the
`non_epub` check can never fire and out-of-policy extensions are silently
ignored, contrary to the claim (and to the script's own stated checks). -/
theorem C8_validator_misses_non_epub_files :
    ValidateFullLibrary.is_book_file "notes.txt" = false ∧
    ValidateFullLibrary.validate ⟨[], [("SMITH, John", ["notes.txt"])]⟩ = [] ∧
    ValidateFullLibrary.exit_code ⟨[], [("SMITH, John", ["notes.txt"])]⟩ = 0 := by
  refine ⟨by decide, by decide, by decide⟩

namespace AuditRawLibrary

open PyStr

/-- The series-marker tokens of the author-side heuristic. -/
def blocked_tokens : List String := ["tome", "vol", "volume", "partie", "part", "livre"]

/-- `looks_like_author` of audit_raw_library.py, as written: the
series-marker check sits after the positive capitalisation test, so it can
only be reached when the function is about to return `false` anyway. -/
def looks_like_author (s : String) : Bool :=
  if s = "" then false
  else if containsChar ',' s then true
  else
    let words := splitWs s
    let capitalized := (words.filter firstIsUpper).length
    if 2 ≤ capitalized ∧ words.length ≤ 5 then true
    else if words.any (fun t => memb (lower t) blocked_tokens) then false
    else false

end AuditRawLibrary

/-- C9: fails on the code.  "Harry Potter Tome" is comma-free and contains
the series marker "tome", yet `looks_like_author` returns `true`: the
blocked-token test is placed after the `capitalized >= 2 and len <= 5`
early return, so it never affects the result. -/
theorem C9_series_marker_check_is_dead :
    PyStr.containsChar ',' "Harry Potter Tome" = false ∧
    (PyStr.splitWs "Harry Potter Tome").any
      (fun t => PyStr.memb (PyStr.lower t) AuditRawLibrary.blocked_tokens) = true ∧
    AuditRawLibrary.looks_like_author "Harry Potter Tome" = true := by
  refine ⟨by decide, by decide, by decide⟩

namespace SanitizeFullLibrary

open PyStr FsNames Scriptorium

/-- The extension policy of the sanitation pass. -/
def BOOK_EXTENSIONS : List String := [".epub"]

/-- The collision loop of the rename branch (this one starts its counter
at 1). -/
def rename_unique (occupied : List String) (t : String) : String :=
  if memb t occupied then
    findFree occupied (mkCand (splitExt t).1 (splitExt t).2) occupied.length 1
  else t

/-- One snapshot entry of the book-filename loop of `sanitize_filenames`.
Files are identified by an id (left component) so that deletion and
rename are distinguishable; `failset` holds the ids whose `unlink` raises
(the exception is swallowed by the code).  A non-EPUB file is unlinked;
an EPUB file with an unsafe name is renamed in place to a collision-free
safe name. -/
def sanitize_step (failset : List Nat) (files : List (Nat × String))
    (e : Nat × String) : List (Nat × String) :=
  if !memb (lower (splitExt e.2).2) BOOK_EXTENSIONS then
    if e.1 ∈ failset then files else files.filter (fun x => x.1 != e.1)
  else
    let safeName := safe_fs_name e.2
    if safeName ≠ e.2 ∨ safeName = "" then
      let t0 := if safeName = "" then "Untitled" ++ (splitExt e.2).2 else safeName
      let t := rename_unique (files.map (fun x => x.2)) t0
      files.map (fun x => if x.1 = e.1 then (x.1, t) else x)
    else files

/-- The book-filename loop of `sanitize_filenames` over one author
directory: iterate the directory snapshot, mutating the live listing.
(The author-directory phase that precedes it in the function only moves
whole directories and does not affect the per-file behaviour modelled
here.) -/
def sanitize_filenames_books (failset : List Nat)
    (snapshot : List (Nat × String)) : List (Nat × String) :=
  snapshot.foldl (sanitize_step failset) snapshot

theorem sanitize_step_fst (failset : List Nat) (files : List (Nat × String))
    (e : Nat × String) (i : Nat) (hne : e.1 ≠ i) :
    (i ∉ files.map (fun x => x.1) →
      i ∉ (sanitize_step failset files e).map (fun x => x.1)) ∧
    (∀ n, (i, n) ∈ files → (i, n) ∈ sanitize_step failset files e) := by
  unfold sanitize_step
  by_cases h1 : !memb (lower (splitExt e.2).2) BOOK_EXTENSIONS
  · rw [if_pos h1]
    by_cases h2 : e.1 ∈ failset
    · rw [if_pos h2]
      exact ⟨fun h => h, fun n hn => hn⟩
    · rw [if_neg h2]
      constructor
      · intro h hc
        obtain ⟨x, hx, hfst⟩ := List.mem_map.mp hc
        exact h (List.mem_map.mpr ⟨x, List.mem_of_mem_filter hx, hfst⟩)
      · intro n hn
        apply List.mem_filter.mpr
        refine ⟨hn, ?_⟩
        simp only [ne_eq, bne_iff_ne]
        exact fun hc => hne hc.symm
  · rw [if_neg h1]
    by_cases h3 : safe_fs_name e.2 ≠ e.2 ∨ safe_fs_name e.2 = ""
    · rw [if_pos h3]
      constructor
      · intro h hc
        obtain ⟨x, hx, hfst⟩ := List.mem_map.mp hc
        obtain ⟨y, hy, hgy⟩ := List.mem_map.mp hx
        apply h
        apply List.mem_map.mpr
        refine ⟨y, hy, ?_⟩
        by_cases hyd : y.1 = e.1
        · rw [← hfst, ← hgy]
          simp [hyd]
        · rw [← hfst, ← hgy]
          simp [hyd]
      · intro n hn
        apply List.mem_map.mpr
        refine ⟨(i, n), hn, ?_⟩
        simp only [if_neg (show ¬ i = e.1 from fun hc => hne hc.symm)]
    · rw [if_neg h3]
      exact ⟨fun h => h, fun n hn => hn⟩

theorem sanitize_fold_other (failset : List Nat) (i : Nat) :
    ∀ (todo : List (Nat × String)), (∀ e ∈ todo, e.1 ≠ i) →
      ∀ files : List (Nat × String),
      (i ∉ files.map (fun x => x.1) →
        i ∉ (todo.foldl (sanitize_step failset) files).map (fun x => x.1)) ∧
      (∀ n, (i, n) ∈ files → (i, n) ∈ todo.foldl (sanitize_step failset) files) := by
  intro todo
  induction todo with
  | nil => intro _ files; exact ⟨fun h => h, fun n hn => hn⟩
  | cons e rest ih =>
    intro hall files
    have hne : e.1 ≠ i := hall e (List.mem_cons_self e rest)
    have hstep := sanitize_step_fst failset files e i hne
    have hrest := ih (fun x hx => hall x (List.mem_cons_of_mem e hx))
      (sanitize_step failset files e)
    exact ⟨fun h => hrest.1 (hstep.1 h), fun n hn => hrest.2 n (hstep.2 n hn)⟩

end SanitizeFullLibrary

/-- C10: the sanitation pass permanently deletes non-book files: a file
of an author directory whose lower-cased suffix is not ".epub" is
unlinked (absent from the resulting directory, under no name), unless its
deletion fails — in which case the failure is swallowed and the file is
left exactly in place. -/
theorem C10_sanitize_unlinks_non_epub
    (snapshot : List (Nat × String)) (failset : List Nat) (i : Nat) (n : String)
    (hnd : (snapshot.map (fun e => e.1)).Nodup)
    (hmem : (i, n) ∈ snapshot)
    (hext : PyStr.memb (PyStr.lower (FsNames.splitExt n).2)
      SanitizeFullLibrary.BOOK_EXTENSIONS = false) :
    (i ∉ failset →
      i ∉ (SanitizeFullLibrary.sanitize_filenames_books failset snapshot).map
        (fun e => e.1)) ∧
    (i ∈ failset →
      (i, n) ∈ SanitizeFullLibrary.sanitize_filenames_books failset snapshot) := by
  obtain ⟨l1, l2, rfl⟩ := List.append_of_mem hmem
  have hids : i ∉ l1.map (fun e => e.1) ∧ i ∉ l2.map (fun e => e.1) := by
    rw [List.map_append, List.nodup_append] at hnd
    refine ⟨fun hc => ?_, fun hc => ?_⟩
    · exact hnd.2.2 hc (by simp)
    · have := hnd.2.1
      simp only [List.map_cons, List.nodup_cons] at this
      exact this.1 hc
  have hall1 : ∀ e ∈ l1, e.1 ≠ i := by
    intro e he hc
    exact hids.1 (List.mem_map.mpr ⟨e, he, hc⟩)
  have hall2 : ∀ e ∈ l2, e.1 ≠ i := by
    intro e he hc
    exact hids.2 (List.mem_map.mpr ⟨e, he, hc⟩)
  unfold SanitizeFullLibrary.sanitize_filenames_books
  rw [List.foldl_append]
  have hpre := SanitizeFullLibrary.sanitize_fold_other failset i l1 hall1
    (l1 ++ (i, n) :: l2)
  have hin : (i, n) ∈ l1.foldl (SanitizeFullLibrary.sanitize_step failset)
      (l1 ++ (i, n) :: l2) :=
    hpre.2 n (by simp)
  simp only [List.foldl_cons]
  constructor
  · intro hfail
    have hstep : SanitizeFullLibrary.sanitize_step failset
        (l1.foldl (SanitizeFullLibrary.sanitize_step failset) (l1 ++ (i, n) :: l2))
        (i, n) =
        (l1.foldl (SanitizeFullLibrary.sanitize_step failset)
          (l1 ++ (i, n) :: l2)).filter (fun x => x.1 != i) := by
      unfold SanitizeFullLibrary.sanitize_step
      rw [if_pos (by simp [hext]), if_neg hfail]
    rw [hstep]
    apply (SanitizeFullLibrary.sanitize_fold_other failset i l2 hall2 _).1
    intro hc
    obtain ⟨x, hx, hfst⟩ := List.mem_map.mp hc
    have := (List.mem_filter.mp hx).2
    rw [hfst] at this
    simp at this
  · intro hfail
    have hstep : SanitizeFullLibrary.sanitize_step failset
        (l1.foldl (SanitizeFullLibrary.sanitize_step failset) (l1 ++ (i, n) :: l2))
        (i, n) =
        l1.foldl (SanitizeFullLibrary.sanitize_step failset) (l1 ++ (i, n) :: l2) := by
      unfold SanitizeFullLibrary.sanitize_step
      rw [if_pos (by simp [hext]), if_pos hfail]
    rw [hstep]
    exact (SanitizeFullLibrary.sanitize_fold_other failset i l2 hall2 _).2 n hin

/-- Witness for C10 at a one-file directory. -/
theorem C10_sanitize_unlinks_non_epub_witness :
    (([(0, "notes.txt")] : List (Nat × String)).map (fun e => e.1)).Nodup ∧
    ((0 : Nat), "notes.txt") ∈ ([(0, "notes.txt")] : List (Nat × String)) ∧
    PyStr.memb (PyStr.lower (FsNames.splitExt "notes.txt").2)
      SanitizeFullLibrary.BOOK_EXTENSIONS = false ∧
    (((0 : Nat) ∉ ([] : List Nat) →
      (0 : Nat) ∉ (SanitizeFullLibrary.sanitize_filenames_books [] [(0, "notes.txt")]).map
        (fun e => e.1)) ∧
    ((0 : Nat) ∈ ([] : List Nat) →
      ((0 : Nat), "notes.txt") ∈
        SanitizeFullLibrary.sanitize_filenames_books [] [(0, "notes.txt")])) :=
  ⟨by decide, by decide, by decide,
    C10_sanitize_unlinks_non_epub [(0, "notes.txt")] [] 0 "notes.txt"
      (by decide) (by decide) (by decide)⟩

/-- C2: the claimed idempotence of the Canonicalizer fails on the code of
plan_full_transfer.py at the empty (or all-whitespace) author string: the
empty token list falls back to "Unknown", and "unknown" is a synonym of
the `Anonyme` collective category, so a second application yields
"Anonyme". -/
theorem C2_normalize_author_dir_name_not_idempotent :
    PlanFullTransfer.normalize_author_dir_name "" = "Unknown" ∧
    PlanFullTransfer.normalize_author_dir_name
        (PlanFullTransfer.normalize_author_dir_name "") = "Anonyme" ∧
    PlanFullTransfer.normalize_author_dir_name
        (PlanFullTransfer.normalize_author_dir_name "") ≠
      PlanFullTransfer.normalize_author_dir_name "" := by
  refine ⟨by decide, by decide, by decide⟩

/-- C7: two non-collective comma-carrying names with nonempty sides form a
reversed pair exactly when the normalized (left, right) token pair of one
is the transpose of the other's; in particular "Smith, John" with
"John, Smith" is a reversed pair while "Smith, John" with "Smith, Jane"
is not.  `spec_token_pair` below is the claim-side pair. -/
theorem C7_reversed_pair_detection (a b : String)
    (ha : PyStr.memb a MergeReversedAuthorPairs.SPECIAL_AUTHORS = false)
    (hb : PyStr.memb b MergeReversedAuthorPairs.SPECIAL_AUTHORS = false)
    (hca : PyStr.containsChar ',' a = true)
    (hcb : PyStr.containsChar ',' b = true)
    (hla : PyStr.strip (PyStr.splitComma a).1 ≠ "")
    (hra : PyStr.strip (PyStr.splitComma a).2 ≠ "")
    (hlb : PyStr.strip (PyStr.splitComma b).1 ≠ "")
    (hrb : PyStr.strip (PyStr.splitComma b).2 ≠ "") :
    (MergeReversedAuthorPairs.is_reversed_pair a b = true ↔
      (MergeReversedAuthorPairs.spec_token_pair a).1 =
          (MergeReversedAuthorPairs.spec_token_pair b).2 ∧
        (MergeReversedAuthorPairs.spec_token_pair a).2 =
          (MergeReversedAuthorPairs.spec_token_pair b).1) ∧
    MergeReversedAuthorPairs.is_reversed_pair "Smith, John" "John, Smith" = true ∧
    MergeReversedAuthorPairs.is_reversed_pair "Smith, John" "Smith, Jane" = false := by
  refine ⟨?_, by decide, by decide⟩
  have hsa := MergeReversedAuthorPairs.split_author_dir_some a ha hca hla hra
  have hsb := MergeReversedAuthorPairs.split_author_dir_some b hb hcb hlb hrb
  unfold MergeReversedAuthorPairs.is_reversed_pair
  rw [hsa, hsb]
  simp [MergeReversedAuthorPairs.spec_token_pair, Bool.and_eq_true, beq_iff_eq]

/-- Witness for C7 at the spec's concrete example. -/
theorem C7_reversed_pair_detection_witness :
    PyStr.memb "Smith, John" MergeReversedAuthorPairs.SPECIAL_AUTHORS = false ∧
    PyStr.memb "John, Smith" MergeReversedAuthorPairs.SPECIAL_AUTHORS = false ∧
    ((MergeReversedAuthorPairs.is_reversed_pair "Smith, John" "John, Smith" = true ↔
      (MergeReversedAuthorPairs.spec_token_pair "Smith, John").1 =
          (MergeReversedAuthorPairs.spec_token_pair "John, Smith").2 ∧
        (MergeReversedAuthorPairs.spec_token_pair "Smith, John").2 =
          (MergeReversedAuthorPairs.spec_token_pair "John, Smith").1) ∧
      MergeReversedAuthorPairs.is_reversed_pair "Smith, John" "John, Smith" = true ∧
      MergeReversedAuthorPairs.is_reversed_pair "Smith, John" "Smith, Jane" = false) :=
  ⟨by decide, by decide,
    C7_reversed_pair_detection "Smith, John" "John, Smith" (by decide) (by decide)
      (by decide) (by decide) (by decide) (by decide) (by decide) (by decide)⟩
